import Mathlib

/-!
Verification of the markdown live-preview span annotator of
`src/editor/live-preview.ts` (the `buildDecorations` method of the
`livePreviewViewPlugin` view-plugin class, together with its `update`
method).

Embedding conventions:
* Offsets are `Int` (JavaScript numbers on these inputs are exact integers,
  and the code computes `to - 1`, which may go below zero).
* A CodeMirror `Decoration` is either `Decoration.mark({class: c})`
  (modelled as `Deco.mark c`) or `Decoration.replace({})` (modelled as
  `Deco.replace`).
* The output of `buildDecorations` is modelled as the sequence of
  `builder.add(from, to, deco)` calls, in call order; the
  `RangeSetBuilder` itself is external library glue.
* `syntaxTree(view.state).iterate({from, to, enter})` follows the
  lezer-tree semantics of `Tree.iterate`: a node is visited (and its
  children explored) exactly when `node.from <= to && node.to >= from`
  - a closed-interval comparison, so a node merely touching an endpoint
  of the range is still visited.  The `enter` callback is the anonymous
  function of lines 31-78 of the source.
* `type.prop(tokenClassNodeProp)` yields the node type's token-class
  string or `undefined`, modelled as `Option String`; the JavaScript
  truthiness test `if (tokenProps)` also rejects the empty string.
  `tokenProps.split(' ')` is JavaScript `String.prototype.split` with a
  single-space separator, modelled by `jsSplitSpace` below; the
  subsequent `new Set(...)`/`has` is list membership.
-/

namespace LivePreview

/-- The part of a CodeMirror `NodeType` the code consults: the value of
`tokenClassNodeProp` attached to the node type (`undefined` when absent). -/
structure NodeType where
  tokenProps : Option String
deriving DecidableEq, BEq

/-- A node of the markdown syntax tree: its type, its half-open offset
range `[from, to)` and its children. -/
inductive SyntaxNode : Type where
  | node (type : NodeType) («from» «to» : Int) (children : List SyntaxNode)

/-- One of `view.visibleRanges`: a half-open offset interval. -/
structure VisibleRange where
  «from» : Int
  «to» : Int
deriving DecidableEq

/-- A decoration value: `Decoration.mark({class: cls})` or
`Decoration.replace({})`. -/
inductive Deco : Type where
  | mark (cls : String)
  | replace
deriving DecidableEq

/-- One `builder.add(from, to, deco)` call. -/
structure Span where
  «from» : Int
  «to» : Int
  deco : Deco
deriving DecidableEq

/-- Shorthand for a `Decoration.mark` span. -/
def mark (f t : Int) (cls : String) : Span := ⟨f, t, Deco.mark cls⟩

/-- Shorthand for a `Decoration.replace({})` (hidden) span. -/
def hide (f t : Int) : Span := ⟨f, t, Deco.replace⟩

def SyntaxNode.type : SyntaxNode → NodeType
  | .node ty _ _ _ => ty

def SyntaxNode.«from» : SyntaxNode → Int
  | .node _ f _ _ => f

def SyntaxNode.«to» : SyntaxNode → Int
  | .node _ _ t _ => t

def SyntaxNode.children : SyntaxNode → List SyntaxNode
  | .node _ _ _ cs => cs

/-- Splits a character list at every space character, JavaScript
`split(' ')` style: `"" ↦ [""]`, consecutive separators produce empty
fields. -/
def splitFields : List Char → List (List Char)
  | [] => [[]]
  | c :: cs =>
    if c = ' ' then [] :: splitFields cs
    else
      match splitFields cs with
      | [] => [[c]]
      | g :: gs => (c :: g) :: gs

/-- JavaScript `s.split(' ')` (single-space separator). -/
def jsSplitSpace (s : String) : List String :=
  (splitFields s.data).map (fun g => String.mk g)

/-- The `enter` callback of `buildDecorations` (live-preview.ts lines
31-78): the sequence of `builder.add` calls it performs for one visited
node, given the node type's token-class string and the node's range.
Each `if` of the source contributes its spans in source order; the
`for (let i = 1; i <= 6; i++)` loop over heading levels is the `join`
over `[1,2,3,4,5,6]`. -/
def enter (ty : NodeType) (f t : Int) : List Span :=
  match ty.tokenProps with
  | none => []
  | some tokenProps =>
    if tokenProps = "" then [] else
    let props := jsSplitSpace tokenProps
    (if props.contains "strong" then [mark f t "cm-strong"] else []) ++
    (if props.contains "em" then [mark f t "cm-em"] else []) ++
    (if props.contains "strikethrough" then [mark f t "cm-strikethrough"] else []) ++
    (if props.contains "inline-code" then
      [mark f t "cm-inline-code", hide f (f + 1), hide (t - 1) t] else []) ++
    (if props.contains "formatting-list-ol" || props.contains "formatting-list-ul" then
      [hide f t] else []) ++
    (if props.contains "formatting-header" then [hide f t] else []) ++
    (if props.contains "formatting-quote" then [hide f t] else []) ++
    (if props.contains "formatting-code-block" then [hide f t] else []) ++
    (([1, 2, 3, 4, 5, 6] : List Nat).map (fun i =>
      if props.contains ("h" ++ toString i) then [mark f t ("cm-h" ++ toString i)] else [])).flatten ++
    (if props.contains "list-1" then [mark f t "cm-list-1"] else []) ++
    (if props.contains "quote" then [mark f t "cm-blockquote"] else []) ++
    (if props.contains "code-block" then [mark f t "cm-code-block"] else [])

mutual

/-- `syntaxTree(view.state).iterate({from := rf, to := rt, enter})` on a
subtree: the node is visited when `node.from ≤ rt ∧ rf ≤ node.to`
(lezer `Tree.iterate` semantics, closed comparison); a visited node
contributes its `enter` spans and then its children are explored in
order; an unvisited node's whole subtree is skipped. -/
def iterNode (rf rt : Int) : SyntaxNode → List Span
  | .node ty f t cs =>
    if f ≤ rt ∧ rf ≤ t then enter ty f t ++ iterChildren rf rt cs else []

/-- Children of a visited node, explored left to right. -/
def iterChildren (rf rt : Int) : List SyntaxNode → List Span
  | [] => []
  | c :: cs => iterNode rf rt c ++ iterChildren rf rt cs

end

/-- `buildDecorations` (live-preview.ts lines 25-83): one shared builder,
iterated once per visible range, so the overall `builder.add` sequence
is the concatenation of the per-range traversals. -/
def buildDecorations (ranges : List VisibleRange) (tree : SyntaxNode) : List Span :=
  match ranges with
  | [] => []
  | r :: rs => iterNode r.«from» r.«to» tree ++ buildDecorations rs tree

/-- The view-plugin instance state: its `decorations` field. -/
structure LivePreviewPlugin where
  decorations : List Span
deriving DecidableEq

/-- The `update(update)` method (lines 15-19): rebuild the decorations
when `update.docChanged || update.viewportChanged`, otherwise leave the
stored set untouched. -/
def update (docChanged viewportChanged : Bool) (ranges : List VisibleRange)
    (tree : SyntaxNode) (self : LivePreviewPlugin) : LivePreviewPlugin :=
  if docChanged || viewportChanged then
    { decorations := buildDecorations ranges tree }
  else
    self

mutual

/-- A syntax tree is well formed when every node satisfies `from ≤ to`
and every child's range is contained in its parent's range (the shape a
real parser produces; the code itself never checks this). -/
def wfNode : SyntaxNode → Bool
  | .node _ f t cs => decide (f ≤ t) && wfChildren f t cs

/-- Containment of a child list inside the parent range `[f, t)`. -/
def wfChildren (f t : Int) : List SyntaxNode → Bool
  | [] => true
  | c :: cs => decide (f ≤ c.«from») && decide (c.«to» ≤ t) && wfNode c && wfChildren f t cs

end

/-- `Occurs n tree`: the node `n` is a node of the tree (the tree itself
or, recursively, a node of one of its children). -/
inductive Occurs : SyntaxNode → SyntaxNode → Prop where
  | refl (n : SyntaxNode) : Occurs n n
  | child {n c : SyntaxNode} {ty : NodeType} {f t : Int} {cs : List SyntaxNode}
      (hc : c ∈ cs) (h : Occurs n c) : Occurs n (.node ty f t cs)

/-- The half-open ranges `[f, t)` and `[r.from, r.to)` have nonempty
intersection. -/
def intersects (f t : Int) (r : VisibleRange) : Prop :=
  f < r.«to» ∧ r.«from» < t

/-- The closed-comparison visit condition of lezer `Tree.iterate`:
`node.from <= to && node.to >= from`. -/
def touches (f t : Int) (r : VisibleRange) : Prop :=
  f ≤ r.«to» ∧ r.«from» ≤ t

instance (f t : Int) (r : VisibleRange) : Decidable (intersects f t r) :=
  instDecidableAnd

instance (f t : Int) (r : VisibleRange) : Decidable (touches f t r) :=
  instDecidableAnd

/-- The kind → CSS-class mapping table of the spec (§4.1), keyed by the
token-class names the code tests. -/
def mappingTable : List (String × String) :=
  [("strong", "cm-strong"), ("em", "cm-em"),
   ("strikethrough", "cm-strikethrough"), ("inline-code", "cm-inline-code"),
   ("h1", "cm-h1"), ("h2", "cm-h2"), ("h3", "cm-h3"),
   ("h4", "cm-h4"), ("h5", "cm-h5"), ("h6", "cm-h6"),
   ("list-1", "cm-list-1"), ("quote", "cm-blockquote"),
   ("code-block", "cm-code-block")]

/-- All token-class names the `enter` callback tests (the recognized
vocabulary). -/
def recognizedNames : List String :=
  ["strong", "em", "strikethrough", "inline-code",
   "formatting-list-ol", "formatting-list-ul", "formatting-header",
   "formatting-quote", "formatting-code-block",
   "h1", "h2", "h3", "h4", "h5", "h6", "list-1", "quote", "code-block"]

/-- The recognized names other than `inline-code`. -/
def otherRecognized : List String :=
  ["strong", "em", "strikethrough",
   "formatting-list-ol", "formatting-list-ul", "formatting-header",
   "formatting-quote", "formatting-code-block",
   "h1", "h2", "h3", "h4", "h5", "h6", "list-1", "quote", "code-block"]

/-- The token-class set the `enter` callback actually consults for a
node type: empty when `tokenProps` is absent or the empty string
(JavaScript falsiness), otherwise the space-split fields. -/
def nodeProps (ty : NodeType) : List String :=
  match ty.tokenProps with
  | none => []
  | some tp => if tp = "" then [] else jsSplitSpace tp

/-- A node type whose token classes match none of the handled names (or
that has no token classes at all): such a node is in no branch of the
`enter` callback. -/
def unrecognizedType (ty : NodeType) : Bool :=
  recognizedNames.all (fun nm => !(nodeProps ty).contains nm)

mutual

/-- Structural (deep) equality of syntax trees. -/
def deepEqNode : SyntaxNode → SyntaxNode → Bool
  | .node ty1 f1 t1 cs1, .node ty2 f2 t2 cs2 =>
    decide (ty1 = ty2) && decide (f1 = f2) && decide (t1 = t2) && deepEqChildren cs1 cs2

/-- Structural (deep) equality of child lists. -/
def deepEqChildren : List SyntaxNode → List SyntaxNode → Bool
  | [], [] => true
  | c :: cs, d :: ds => deepEqNode c d && deepEqChildren cs ds
  | _, _ => false

end

/-- The ordering the spec claims for the output: ascending by `from`,
ties broken by ascending `to`. -/
def sortedByFromThenTo : List Span → Bool
  | [] => true
  | [_] => true
  | a :: b :: l =>
    (decide (a.«from» < b.«from») ||
      (decide (a.«from» = b.«from») && decide (a.«to» ≤ b.«to»))) &&
    sortedByFromThenTo (b :: l)

/-- Ascending by `from` (ties in any order). -/
def sortedByFrom (l : List Span) : Prop :=
  List.Pairwise (fun a b => a.«from» ≤ b.«from») l

mutual

/-- Children appear in left-to-right order: each child ends no later
than its next sibling starts, recursively. -/
def orderedNode : SyntaxNode → Bool
  | .node _ _ _ cs => orderedChildren cs

/-- Sibling ordering of a child list. -/
def orderedChildren : List SyntaxNode → Bool
  | [] => true
  | [c] => orderedNode c
  | c :: d :: cs => decide (c.«to» ≤ d.«from») && orderedNode c && orderedChildren (d :: cs)

end

mutual

/-- Every node carrying the `inline-code` class is a leaf of length at
least 2 carrying no other recognized class (the shape inline-code
tokens actually have). -/
def icSafeNode : SyntaxNode → Bool
  | .node ty f t cs =>
    (if (nodeProps ty).contains "inline-code" then
      decide (f + 2 ≤ t) && cs.isEmpty &&
        otherRecognized.all (fun nm => !(nodeProps ty).contains nm)
     else true) && icSafeChildren cs

/-- `icSafeNode` for each member of a child list. -/
def icSafeChildren : List SyntaxNode → Bool
  | [] => true
  | c :: cs => icSafeNode c && icSafeChildren cs

end

theorem wfNode_node {ty : NodeType} {f t : Int} {cs : List SyntaxNode} :
    wfNode (.node ty f t cs) = true ↔ f ≤ t ∧ wfChildren f t cs = true := by
  simp [wfNode]

theorem wfChildren_mem {f t : Int} {cs : List SyntaxNode} {c : SyntaxNode}
    (h : wfChildren f t cs = true) (hc : c ∈ cs) :
    f ≤ c.«from» ∧ c.«to» ≤ t ∧ wfNode c = true := by
  induction hc with
  | head ds =>
    simp only [wfChildren, Bool.and_eq_true, decide_eq_true_eq] at h
    exact ⟨h.1.1.1, h.1.1.2, h.1.2⟩
  | tail d hmem ih =>
    simp only [wfChildren, Bool.and_eq_true, decide_eq_true_eq] at h
    exact ih h.2

/-- In a well-formed tree, every node's range is contained in the
root's range. -/
theorem Occurs.range_sub {n tree : SyntaxNode}
    (hocc : Occurs n tree) (hwf : wfNode tree = true) :
    tree.«from» ≤ n.«from» ∧ n.«to» ≤ tree.«to» := by
  induction hocc with
  | refl => exact ⟨le_refl _, le_refl _⟩
  | child hc hsub ih =>
    have hw := (wfNode_node.mp hwf).2
    obtain ⟨h1, h2, hwc⟩ := wfChildren_mem hw hc
    have := ih hwc
    exact ⟨le_trans h1 this.1, le_trans this.2 h2⟩

/-- In a well-formed tree, every node occurring in it is itself
well formed. -/
theorem Occurs.wf {n tree : SyntaxNode}
    (hocc : Occurs n tree) (hwf : wfNode tree = true) : wfNode n = true := by
  induction hocc with
  | refl => exact hwf
  | child hc hsub ih =>
    exact ih (wfChildren_mem (wfNode_node.mp hwf).2 hc).2.2

theorem mem_iterChildren {rf rt : Int} {c : SyntaxNode} {cs : List SyntaxNode} {s : Span}
    (hc : c ∈ cs) (hs : s ∈ iterNode rf rt c) : s ∈ iterChildren rf rt cs := by
  induction hc with
  | head ds => exact List.mem_append_left _ hs
  | tail d hmem ih => exact List.mem_append_right _ ih

/-- Every span emitted by the `enter` callback at a node of a well-formed
tree that touches the iterated range appears in the traversal output:
`Tree.iterate` reaches the node because its ancestors' ranges contain
its own and hence also touch the range. -/
theorem enter_mem_iterNode {rf rt : Int} {n tree : SyntaxNode} {s : Span}
    (hwf : wfNode tree = true) (hocc : Occurs n tree)
    (ht : n.«from» ≤ rt ∧ rf ≤ n.«to»)
    (hs : s ∈ enter n.type n.«from» n.«to») :
    s ∈ iterNode rf rt tree := by
  induction hocc with
  | refl =>
    cases n with
    | node ty f t cs =>
      simp only [SyntaxNode.type, SyntaxNode.«from», SyntaxNode.«to»] at ht hs
      simp only [iterNode, if_pos ht]
      exact List.mem_append_left _ hs
  | child hc hsub ih =>
    obtain ⟨h1, h2, hwc⟩ := wfChildren_mem (wfNode_node.mp hwf).2 hc
    have hrange := Occurs.range_sub hsub hwc
    have hcond := And.intro (le_trans h1 (le_trans hrange.1 ht.1))
      (le_trans ht.2 (le_trans hrange.2 h2))
    simp only [iterNode, if_pos hcond]
    exact List.mem_append_right _ (mem_iterChildren hc (ih hwc))

theorem mem_buildDecorations {ranges : List VisibleRange} {r : VisibleRange}
    {tree : SyntaxNode} {s : Span}
    (hr : r ∈ ranges) (hs : s ∈ iterNode r.«from» r.«to» tree) :
    s ∈ buildDecorations ranges tree := by
  induction hr with
  | head qs => exact List.mem_append_left _ hs
  | tail q hmem ih => exact List.mem_append_right _ ih

theorem hName1 : ("h" ++ toString (1 : Nat)) = "h1" := rfl
theorem hName2 : ("h" ++ toString (2 : Nat)) = "h2" := rfl
theorem hName3 : ("h" ++ toString (3 : Nat)) = "h3" := rfl
theorem hName4 : ("h" ++ toString (4 : Nat)) = "h4" := rfl
theorem hName5 : ("h" ++ toString (5 : Nat)) = "h5" := rfl
theorem hName6 : ("h" ++ toString (6 : Nat)) = "h6" := rfl
theorem hCls1 : ("cm-h" ++ toString (1 : Nat)) = "cm-h1" := rfl
theorem hCls2 : ("cm-h" ++ toString (2 : Nat)) = "cm-h2" := rfl
theorem hCls3 : ("cm-h" ++ toString (3 : Nat)) = "cm-h3" := rfl
theorem hCls4 : ("cm-h" ++ toString (4 : Nat)) = "cm-h4" := rfl
theorem hCls5 : ("cm-h" ++ toString (5 : Nat)) = "cm-h5" := rfl
theorem hCls6 : ("cm-h" ++ toString (6 : Nat)) = "cm-h6" := rfl

/-- A node whose token classes contain a key of the mapping table has
the mapped mark span among its `enter` spans. -/
theorem mark_mem_enter {tp k c : String} {f t : Int}
    (hkc : (k, c) ∈ mappingTable)
    (hp : (jsSplitSpace tp).contains k = true) :
    mark f t c ∈ enter ⟨some tp⟩ f t := by
  by_cases htp : tp = ""
  · subst htp
    fin_cases hkc <;> exact absurd hp (by decide)
  · have hp' := hp
    simp only [List.contains, List.elem_eq_mem, decide_eq_true_eq] at hp'
    fin_cases hkc <;>
      simp [enter, htp, hp', hName1, hName2, hName3, hName4, hName5, hName6,
        hCls1, hCls2, hCls3, hCls4, hCls5, hCls6]

/-- A node whose token classes contain `inline-code` emits the
`cm-inline-code` mark and the two one-character replace spans. -/
theorem inlineCode_mem_enter {tp : String} {f t : Int}
    (hp : (jsSplitSpace tp).contains "inline-code" = true) :
    mark f t "cm-inline-code" ∈ enter ⟨some tp⟩ f t ∧
    hide f (f + 1) ∈ enter ⟨some tp⟩ f t ∧
    hide (t - 1) t ∈ enter ⟨some tp⟩ f t := by
  by_cases htp : tp = ""
  · subst htp; exact absurd hp (by decide)
  · have hp' := hp
    simp only [List.contains, List.elem_eq_mem, decide_eq_true_eq] at hp'
    refine ⟨?_, ?_, ?_⟩ <;> simp [enter, htp, hp']

/-- A node carrying one of the five formatting-marker classes emits the
full-range replace span. -/
theorem formatting_mem_enter {tp nm : String} {f t : Int}
    (hnm : nm ∈ ["formatting-list-ol", "formatting-list-ul", "formatting-header",
      "formatting-quote", "formatting-code-block"])
    (hp : (jsSplitSpace tp).contains nm = true) :
    hide f t ∈ enter ⟨some tp⟩ f t := by
  by_cases htp : tp = ""
  · subst htp; fin_cases hnm <;> exact absurd hp (by decide)
  · have hp' := hp
    simp only [List.contains, List.elem_eq_mem, decide_eq_true_eq] at hp'
    fin_cases hnm <;> simp [enter, htp, hp']

/-- Any span the `enter` callback emits at a node of a well-formed tree
that intersects a member of `ranges` is in the `buildDecorations`
output. -/
theorem span_mem_buildDecorations {ranges : List VisibleRange} {tree : SyntaxNode}
    {ty : NodeType} {f t : Int} {cs : List SyntaxNode} {r : VisibleRange} {s : Span}
    (hwf : wfNode tree = true) (hocc : Occurs (.node ty f t cs) tree)
    (hr : r ∈ ranges) (hint : intersects f t r)
    (hs : s ∈ enter ty f t) :
    s ∈ buildDecorations ranges tree :=
  mem_buildDecorations hr
    (enter_mem_iterNode hwf hocc ⟨le_of_lt hint.1, le_of_lt hint.2⟩ hs)

/-- The three inline-code spans of a visited InlineCode node all appear
in the output. -/
theorem inlineCode_mem_buildDecorations {ranges : List VisibleRange}
    {tree : SyntaxNode} {ty : NodeType}
    {f t : Int} {cs : List SyntaxNode} {r : VisibleRange} {tp : String}
    (hwf : wfNode tree = true) (hocc : Occurs (.node ty f t cs) tree)
    (htp : ty.tokenProps = some tp)
    (hic : (jsSplitSpace tp).contains "inline-code" = true)
    (hr : r ∈ ranges) (hint : intersects f t r) :
    mark f t "cm-inline-code" ∈ buildDecorations ranges tree ∧
    hide f (f + 1) ∈ buildDecorations ranges tree ∧
    hide (t - 1) t ∈ buildDecorations ranges tree := by
  have hty : ty = ⟨some tp⟩ := by cases ty; cases htp; rfl
  subst hty
  obtain ⟨h1, h2, h3⟩ := inlineCode_mem_enter (f := f) (t := t) hic
  exact ⟨span_mem_buildDecorations hwf hocc hr hint h1,
    span_mem_buildDecorations hwf hocc hr hint h2,
    span_mem_buildDecorations hwf hocc hr hint h3⟩

/-- C2 (confirmed): for every InlineCode node (token class
`inline-code`) of a well-formed tree intersecting a visible range, the
decorate+hide output contains the `cm-inline-code` mark span over the
node's exact `[from, to)` plus hidden (replace) spans over the first
character `[from, from+1)` and the last character `[to-1, to)`; for a
node at offsets `[10,16)` these are `[10,11)` and `[15,16)`. -/
theorem claim_C2 {ranges : List VisibleRange} {tree : SyntaxNode} {ty : NodeType}
    {f t : Int} {cs : List SyntaxNode} {r : VisibleRange} {tp : String}
    (hwf : wfNode tree = true) (hocc : Occurs (.node ty f t cs) tree)
    (htp : ty.tokenProps = some tp)
    (hic : (jsSplitSpace tp).contains "inline-code" = true)
    (hr : r ∈ ranges) (hint : intersects f t r) :
    mark f t "cm-inline-code" ∈ buildDecorations ranges tree ∧
    hide f (f + 1) ∈ buildDecorations ranges tree ∧
    hide (t - 1) t ∈ buildDecorations ranges tree :=
  inlineCode_mem_buildDecorations hwf hocc htp hic hr hint

/-- C2 witness: the InlineCode node at `[10,16)`. -/
theorem claim_C2_witness :
    mark 10 16 "cm-inline-code" ∈
      buildDecorations [⟨0, 100⟩] (.node ⟨some "inline-code"⟩ 10 16 []) ∧
    hide 10 11 ∈ buildDecorations [⟨0, 100⟩] (.node ⟨some "inline-code"⟩ 10 16 []) ∧
    hide 15 16 ∈ buildDecorations [⟨0, 100⟩] (.node ⟨some "inline-code"⟩ 10 16 []) :=
  claim_C2 (r := ⟨0, 100⟩) (by decide) (Occurs.refl _) rfl (by decide) (by decide)
    (by decide)

/-- C8 (confirmed): there is no decorate-only mode - `buildDecorations`
takes no mode argument, and whenever a visited node carries
`inline-code` or one of the formatting-marker classes
(`formatting-header`, `formatting-quote`, `formatting-list-ol`,
`formatting-list-ul`, `formatting-code-block`) and intersects a visible
range, the hidden (replace) spans are unconditionally present in the
output. -/
theorem claim_C8 {ranges : List VisibleRange} {tree : SyntaxNode} {ty : NodeType}
    {f t : Int} {cs : List SyntaxNode} {r : VisibleRange} {tp : String}
    (hwf : wfNode tree = true) (hocc : Occurs (.node ty f t cs) tree)
    (htp : ty.tokenProps = some tp)
    (hr : r ∈ ranges) (hint : intersects f t r) :
    ((jsSplitSpace tp).contains "inline-code" = true →
      hide f (f + 1) ∈ buildDecorations ranges tree ∧
      hide (t - 1) t ∈ buildDecorations ranges tree) ∧
    (∀ nm ∈ ["formatting-list-ol", "formatting-list-ul", "formatting-header",
        "formatting-quote", "formatting-code-block"],
      (jsSplitSpace tp).contains nm = true →
      hide f t ∈ buildDecorations ranges tree) := by
  have hty : ty = ⟨some tp⟩ := by cases ty; cases htp; rfl
  subst hty
  constructor
  · intro hic
    obtain ⟨h1, h2, h3⟩ := inlineCode_mem_enter (f := f) (t := t) hic
    exact ⟨span_mem_buildDecorations hwf hocc hr hint h2,
      span_mem_buildDecorations hwf hocc hr hint h3⟩
  · intro nm hnm hp
    exact span_mem_buildDecorations hwf hocc hr hint (formatting_mem_enter hnm hp)

/-- C8 witness: a `formatting-header` marker node at `[0,3)` and an
`inline-code` node at `[10,16)`. -/
theorem claim_C8_witness :
    (hide 0 3 ∈ buildDecorations [⟨0, 10⟩] (.node ⟨some "formatting-header"⟩ 0 3 [])) ∧
    (hide 10 11 ∈ buildDecorations [⟨0, 20⟩] (.node ⟨some "inline-code"⟩ 10 16 [])) :=
  ⟨(claim_C8 (r := ⟨0, 10⟩) (by decide) (Occurs.refl _) rfl (by decide) (by decide)).2
      "formatting-header" (by decide) (by decide),
   ((claim_C8 (r := ⟨0, 20⟩) (by decide) (Occurs.refl _) rfl (by decide) (by decide)).1
      (by decide)).1⟩

/-- C9 (confirmed): the inline-code delimiter hiding assumes node length
at least 2: for a visited InlineCode node the code unconditionally adds
the hidden spans `[from, from+1)` and `[to-1, to)`; each has length 1,
and they are disjoint and contained in `[from, to)` exactly when
`to - from ≥ 2` - for shorter nodes that geometry fails (the spans
coincide or escape the node). -/
theorem claim_C9 {ranges : List VisibleRange} {tree : SyntaxNode} {ty : NodeType}
    {f t : Int} {cs : List SyntaxNode} {r : VisibleRange} {tp : String}
    (hwf : wfNode tree = true) (hocc : Occurs (.node ty f t cs) tree)
    (htp : ty.tokenProps = some tp)
    (hic : (jsSplitSpace tp).contains "inline-code" = true)
    (hr : r ∈ ranges) (hint : intersects f t r) :
    (hide f (f + 1) ∈ buildDecorations ranges tree ∧
     hide (t - 1) t ∈ buildDecorations ranges tree) ∧
    ((hide f (f + 1)).«to» - (hide f (f + 1)).«from» = 1 ∧
     (hide (t - 1) t).«to» - (hide (t - 1) t).«from» = 1) ∧
    (((hide f (f + 1)).«to» ≤ (hide (t - 1) t).«from» ∧
      f ≤ (hide f (f + 1)).«from» ∧ (hide f (f + 1)).«to» ≤ t ∧
      f ≤ (hide (t - 1) t).«from» ∧ (hide (t - 1) t).«to» ≤ t) ↔ 2 ≤ t - f) := by
  have hmem := inlineCode_mem_buildDecorations hwf hocc htp hic hr hint
  refine ⟨⟨hmem.2.1, hmem.2.2⟩, ⟨?_, ?_⟩, ?_⟩
  · simp only [hide]
    omega
  · simp only [hide]
    omega
  · simp only [hide]
    omega

/-- C9 witness: the geometry holds at the length-6 node `[10,16)` and
its hidden spans appear in the output. -/
theorem claim_C9_witness :
    (hide 10 11 ∈ buildDecorations [⟨0, 100⟩] (.node ⟨some "inline-code"⟩ 10 16 []) ∧
     hide 15 16 ∈ buildDecorations [⟨0, 100⟩] (.node ⟨some "inline-code"⟩ 10 16 [])) ∧
    ((hide 10 11).«to» - (hide 10 11).«from» = 1 ∧
     (hide 15 16).«to» - (hide 15 16).«from» = 1) ∧
    (((hide 10 11).«to» ≤ (hide 15 16).«from» ∧
      (10 : Int) ≤ (hide 10 11).«from» ∧ (hide 10 11).«to» ≤ 16 ∧
      (10 : Int) ≤ (hide 15 16).«from» ∧ (hide 15 16).«to» ≤ 16) ↔
        (2 : Int) ≤ 16 - 10) :=
  claim_C9 (r := ⟨0, 100⟩) (by decide) (Occurs.refl _) rfl (by decide) (by decide)
    (by decide)

/-- C10 (confirmed): on a view update in which neither the document nor
the viewport changed, `update` leaves the plugin's stored decoration
set exactly as it was. -/
theorem claim_C10 (ranges : List VisibleRange) (tree : SyntaxNode)
    (self : LivePreviewPlugin) :
    update false false ranges tree self = self := rfl

/-- C7 (confirmed): a node whose token classes match none of the handled
names (or that carries no token classes at all) is silently skipped:
the `enter` callback emits nothing for it, the call cannot fail (the
function is total), and the node behaves exactly like a node with no
token classes - its children are still decorated. -/
theorem claim_C7 {ty : NodeType} (h : unrecognizedType ty = true) :
    (∀ f t : Int, enter ty f t = []) ∧
    (∀ (ranges : List VisibleRange) (f t : Int) (cs : List SyntaxNode),
      buildDecorations ranges (.node ty f t cs) =
        buildDecorations ranges (.node ⟨none⟩ f t cs)) := by
  have hnone : ∀ f t : Int, enter ty f t = [] := by
    intro f t
    obtain ⟨tp⟩ := ty
    cases tp with
    | none => rfl
    | some tp =>
      by_cases htp : tp = ""
      · subst htp; rfl
      · have hs : ∀ nm ∈ recognizedNames, nm ∉ jsSplitSpace tp := by
          simpa [unrecognizedType, nodeProps, htp] using h
        simp [enter, htp, hName1, hName2, hName3, hName4, hName5, hName6,
          hs "strong" (by simp [recognizedNames]),
          hs "em" (by simp [recognizedNames]),
          hs "strikethrough" (by simp [recognizedNames]),
          hs "inline-code" (by simp [recognizedNames]),
          hs "formatting-list-ol" (by simp [recognizedNames]),
          hs "formatting-list-ul" (by simp [recognizedNames]),
          hs "formatting-header" (by simp [recognizedNames]),
          hs "formatting-quote" (by simp [recognizedNames]),
          hs "formatting-code-block" (by simp [recognizedNames]),
          hs "h1" (by simp [recognizedNames]), hs "h2" (by simp [recognizedNames]),
          hs "h3" (by simp [recognizedNames]), hs "h4" (by simp [recognizedNames]),
          hs "h5" (by simp [recognizedNames]), hs "h6" (by simp [recognizedNames]),
          hs "list-1" (by simp [recognizedNames]),
          hs "quote" (by simp [recognizedNames]),
          hs "code-block" (by simp [recognizedNames])]
  refine ⟨hnone, ?_⟩
  intro ranges f t cs
  induction ranges with
  | nil => rfl
  | cons q qs ih =>
    simp only [buildDecorations, iterNode, hnone f t]
    rw [ih]
    rfl

/-- C7 witness: a node kind `atom` outside the vocabulary. -/
theorem claim_C7_witness :
    enter ⟨some "atom"⟩ 2 7 = [] ∧
    buildDecorations [⟨0, 10⟩] (.node ⟨some "atom"⟩ 2 7 [.node ⟨some "strong"⟩ 3 5 []]) =
      buildDecorations [⟨0, 10⟩] (.node ⟨none⟩ 2 7 [.node ⟨some "strong"⟩ 3 5 []]) :=
  ⟨(claim_C7 (by decide)).1 2 7,
   (claim_C7 (by decide)).2 [⟨0, 10⟩] 2 7 [.node ⟨some "strong"⟩ 3 5 []]⟩

mutual

theorem deepEqNode_eq : ∀ {a b : SyntaxNode}, deepEqNode a b = true → a = b
  | .node ty1 f1 t1 cs1, .node ty2 f2 t2 cs2, h => by
    simp only [deepEqNode, Bool.and_eq_true, decide_eq_true_eq] at h
    obtain ⟨⟨⟨h1, h2⟩, h3⟩, h4⟩ := h
    subst h1; subst h2; subst h3
    exact congrArg (SyntaxNode.node ty1 f1 t1) (deepEqChildren_eq h4)

theorem deepEqChildren_eq : ∀ {as bs : List SyntaxNode}, deepEqChildren as bs = true → as = bs
  | [], [], _ => rfl
  | c :: cs, d :: ds, h => by
    simp only [deepEqChildren, Bool.and_eq_true] at h
    rw [deepEqNode_eq h.1, deepEqChildren_eq h.2]
  | [], _ :: _, h => by simp [deepEqChildren] at h
  | _ :: _, [], h => by simp [deepEqChildren] at h

end

/-- C6 (confirmed): `buildDecorations` is deterministic - it is a pure
function of the tree and the visible ranges, so two calls on deep-equal
inputs return identical span sequences; no hidden state or randomness
enters the result. -/
theorem claim_C6 {ranges1 ranges2 : List VisibleRange} {tree1 tree2 : SyntaxNode}
    (htree : deepEqNode tree1 tree2 = true) (hranges : ranges1 = ranges2) :
    buildDecorations ranges1 tree1 = buildDecorations ranges2 tree2 := by
  rw [deepEqNode_eq htree, hranges]

/-- C6 witness: two syntactically different but deep-equal trees. -/
theorem claim_C6_witness :
    buildDecorations [⟨0, 6⟩] (.node ⟨some ("str" ++ "ong")⟩ 0 (2 + 2) []) =
      buildDecorations [⟨0, 6⟩] (.node ⟨some "strong"⟩ 0 4 []) :=
  claim_C6 (by decide) rfl

/-- C4 (corrected): counterexample - a node with `from = 10, to = 5`
does not make the call fail with a MalformedTree error: the annotator
has no validation at all, the call succeeds and the returned list
contains the negative-length span `[10, 5)`. -/
theorem claim_C4_counterexample :
    buildDecorations [⟨0, 100⟩] (.node ⟨some "strong"⟩ 10 5 []) =
      [mark 10 5 "cm-strong"] ∧
    (mark 10 5 "cm-strong").«to» < (mark 10 5 "cm-strong").«from» := by
  constructor
  · decide
  · decide

/-- C4 (amended): `buildDecorations` never fails and performs no range
validation: a visited node of any mapped kind with `to < from` yields
its (negative-length) span `[from, to)` in the output unchanged. -/
theorem claim_C4_amended {f t : Int} {r : VisibleRange} {k c : String}
    (hkc : (k, c) ∈ mappingTable) (hdeg : t < f)
    (htouch : f ≤ r.«to» ∧ r.«from» ≤ t) :
    mark f t c ∈ buildDecorations [r] (.node ⟨some k⟩ f t []) ∧
    (mark f t c).«to» < (mark f t c).«from» := by
  constructor
  · have hself : (jsSplitSpace k).contains k = true := by
      fin_cases hkc <;> decide
    have hmem := mark_mem_enter (f := f) (t := t) hkc hself
    simp only [buildDecorations, iterNode, if_pos htouch]
    exact List.mem_append_left _ (List.mem_append_left _ hmem)
  · simpa [mark] using hdeg

/-- C4 witness: the spec's own example `from = 10, to = 5`. -/
theorem claim_C4_witness :
    mark 10 5 "cm-strong" ∈ buildDecorations [⟨0, 100⟩] (.node ⟨some "strong"⟩ 10 5 []) ∧
    (mark 10 5 "cm-strong").«to» < (mark 10 5 "cm-strong").«from» :=
  claim_C4_amended (by decide) (by decide) (by decide)

theorem iterChildren_append (rf rt : Int) (as bs : List SyntaxNode) :
    iterChildren rf rt (as ++ bs) = iterChildren rf rt as ++ iterChildren rf rt bs := by
  induction as with
  | nil => rfl
  | cons c cs ih => simp [iterChildren, ih]

/-- A subtree strictly separated from the iterated range produces no
spans: the visit condition fails at its root. -/
theorem iterNode_sep {rf rt f t : Int} {ty : NodeType} {cs : List SyntaxNode}
    (h : t < rf ∨ rt < f) : iterNode rf rt (.node ty f t cs) = [] := by
  have hn : ¬(f ≤ rt ∧ rf ≤ t) := by omega
  simp [iterNode, hn]

/-- C5 (corrected): counterexample - the StrongEmphasis node `[5,10)` is
entirely outside the only visible range `[10,20)` (the half-open
intervals are disjoint), yet its `cm-strong` span is emitted: lezer
`Tree.iterate` uses the closed comparison `node.from <= to && node.to >= from`,
so a node merely adjacent to a visible range is still visited. -/
theorem claim_C5_counterexample :
    Disjoint (Set.Ico (5 : Int) 10) (Set.Ico (10 : Int) 20) ∧
    mark 5 10 "cm-strong" ∈
      buildDecorations [⟨10, 20⟩]
        (.node ⟨none⟩ 0 20 [.node ⟨some "strong"⟩ 5 10 []]) := by
  constructor
  · rw [Set.Ico_disjoint_Ico]
    norm_num
  · decide

/-- C5 (amended): a node strictly separated from every visible range
(`node.to < range.from` or `range.to < node.from`, with no endpoint
contact) is never visited and contributes nothing: deleting it from its
parent's child list leaves the output unchanged; merely disjoint but
adjacent nodes are, by the counterexample, still decorated. -/
theorem claim_C5_amended {ranges : List VisibleRange} {ty ty' : NodeType}
    {f t f' t' : Int} {cs' : List SyntaxNode} (pre post : List SyntaxNode)
    (hsep : ∀ r ∈ ranges, t' < r.«from» ∨ r.«to» < f') :
    buildDecorations ranges (.node ty f t (pre ++ SyntaxNode.node ty' f' t' cs' :: post)) =
      buildDecorations ranges (.node ty f t (pre ++ post)) := by
  induction ranges with
  | nil => rfl
  | cons q qs ih =>
    have hq := hsep q (List.mem_cons_self q qs)
    have e1 : iterNode q.«from» q.«to»
        (.node ty f t (pre ++ SyntaxNode.node ty' f' t' cs' :: post)) =
        iterNode q.«from» q.«to» (.node ty f t (pre ++ post)) := by
      by_cases hc : f ≤ q.«to» ∧ q.«from» ≤ t
      · have e2 : iterChildren q.«from» q.«to» (SyntaxNode.node ty' f' t' cs' :: post) =
            iterChildren q.«from» q.«to» post := by
          simp only [iterChildren]
          rw [iterNode_sep hq]
          simp
        simp only [iterNode, if_pos hc, iterChildren_append, e2]
      · simp only [iterNode, if_neg hc]
    simp only [buildDecorations]
    rw [e1, ih (fun r hr => hsep r (List.mem_cons_of_mem q hr))]

/-- C5 witness: deleting a strictly separated `em` node changes
nothing. -/
theorem claim_C5_witness :
    buildDecorations [⟨10, 20⟩]
        (.node ⟨none⟩ 0 30 [SyntaxNode.node ⟨some "em"⟩ 2 8 [],
          SyntaxNode.node ⟨some "strong"⟩ 12 15 []]) =
      buildDecorations [⟨10, 20⟩]
        (.node ⟨none⟩ 0 30 [SyntaxNode.node ⟨some "strong"⟩ 12 15 []]) :=
  claim_C5_amended [] [SyntaxNode.node ⟨some "strong"⟩ 12 15 []] (by decide)

theorem enter_strong (f t : Int) :
    enter ⟨some "strong"⟩ f t = [mark f t "cm-strong"] := rfl

theorem enter_em (f t : Int) :
    enter ⟨some "em"⟩ f t = [mark f t "cm-em"] := rfl

theorem enter_strikethrough (f t : Int) :
    enter ⟨some "strikethrough"⟩ f t = [mark f t "cm-strikethrough"] := rfl

theorem enter_h1 (f t : Int) :
    enter ⟨some "h1"⟩ f t = [mark f t "cm-h1"] := rfl

theorem enter_h2 (f t : Int) :
    enter ⟨some "h2"⟩ f t = [mark f t "cm-h2"] := rfl

theorem enter_h3 (f t : Int) :
    enter ⟨some "h3"⟩ f t = [mark f t "cm-h3"] := rfl

theorem enter_h4 (f t : Int) :
    enter ⟨some "h4"⟩ f t = [mark f t "cm-h4"] := rfl

theorem enter_h5 (f t : Int) :
    enter ⟨some "h5"⟩ f t = [mark f t "cm-h5"] := rfl

theorem enter_h6 (f t : Int) :
    enter ⟨some "h6"⟩ f t = [mark f t "cm-h6"] := rfl

theorem enter_list_1 (f t : Int) :
    enter ⟨some "list-1"⟩ f t = [mark f t "cm-list-1"] := rfl

theorem enter_quote (f t : Int) :
    enter ⟨some "quote"⟩ f t = [mark f t "cm-blockquote"] := rfl

theorem enter_code_block (f t : Int) :
    enter ⟨some "code-block"⟩ f t = [mark f t "cm-code-block"] := rfl

theorem enter_inline_code (f t : Int) :
    enter ⟨some "inline-code"⟩ f t =
      [mark f t "cm-inline-code", hide f (f + 1), hide (t - 1) t] := rfl

/-- C1 (corrected): counterexample - the `strong` node `[0,20)`
intersects both supplied visible ranges `[0,5)` and `[10,15)` (ascending
and non-overlapping, as the host supplies them), and the output contains
its `cm-strong` span twice - one copy per range traversal - not exactly
once. -/
theorem claim_C1_counterexample :
    intersects 0 20 ⟨0, 5⟩ ∧ intersects 0 20 ⟨10, 15⟩ ∧
    (buildDecorations [⟨0, 5⟩, ⟨10, 15⟩] (.node ⟨some "strong"⟩ 0 20 [])).count
        (mark 0 20 "cm-strong") = 2 := by decide

/-- C1 (amended): for every node of a well-formed tree whose kind is in
the mapping table and which intersects a visible range, the output
contains the mapped class span over exactly the node's `[from, to)` at
least once; the multiplicity is one per traversal that reaches the node
- for a single-node tree the count equals the number of visible ranges
the node touches - so "exactly one" holds precisely when the node meets
exactly one range. -/
theorem claim_C1_amended :
    (∀ (ranges : List VisibleRange) (tree : SyntaxNode) (ty : NodeType)
        (f t : Int) (cs : List SyntaxNode) (r : VisibleRange) (tp k c : String),
        wfNode tree = true → Occurs (.node ty f t cs) tree →
        ty.tokenProps = some tp → (k, c) ∈ mappingTable →
        (jsSplitSpace tp).contains k = true → r ∈ ranges → intersects f t r →
        mark f t c ∈ buildDecorations ranges tree) ∧
    (∀ (ranges : List VisibleRange) (f t : Int) (k c : String),
        (k, c) ∈ mappingTable →
        (buildDecorations ranges (.node ⟨some k⟩ f t [])).count (mark f t c) =
          (ranges.filter (fun r => decide (touches f t r))).length) := by
  constructor
  · intro ranges tree ty f t cs r tp k c hwf hocc htp hkc hp hr hint
    have hty : ty = ⟨some tp⟩ := by cases ty; cases htp; rfl
    subst hty
    exact span_mem_buildDecorations hwf hocc hr hint (mark_mem_enter hkc hp)
  · intro ranges f t k c hkc
    have he : (enter ⟨some k⟩ f t).count (mark f t c) = 1 := by
      fin_cases hkc <;>
        simp [enter_strong, enter_em, enter_strikethrough, enter_inline_code,
          enter_h1, enter_h2, enter_h3, enter_h4, enter_h5, enter_h6,
          enter_list_1, enter_quote, enter_code_block,
          mark, hide, List.count_cons]
    induction ranges with
    | nil => rfl
    | cons q qs ih =>
      simp only [buildDecorations, List.count_append, ih]
      by_cases hq : f ≤ q.«to» ∧ q.«from» ≤ t
      · have h1 : (iterNode q.«from» q.«to» (SyntaxNode.node ⟨some k⟩ f t [])).count
            (mark f t c) = 1 := by
          simp only [iterNode, if_pos hq, iterChildren, List.append_nil]
          exact he
        have h2 : List.filter (fun r => decide (touches f t r)) (q :: qs) =
            q :: List.filter (fun r => decide (touches f t r)) qs :=
          List.filter_cons_of_pos (by simpa [touches] using hq)
        rw [h1, h2]
        simp only [List.length_cons]
        omega
      · have h1 : (iterNode q.«from» q.«to» (SyntaxNode.node ⟨some k⟩ f t [])).count
            (mark f t c) = 0 := by
          simp only [iterNode, if_neg hq, List.count_nil]
        have h2 : List.filter (fun r => decide (touches f t r)) (q :: qs) =
            List.filter (fun r => decide (touches f t r)) qs :=
          List.filter_cons_of_neg (by simpa [touches] using hq)
        rw [h1, h2]
        simp

/-- C1 witness: a `strong` node meeting its single visible range
receives its span with multiplicity exactly one. -/
theorem claim_C1_witness :
    mark 2 8 "cm-strong" ∈ buildDecorations [⟨0, 6⟩] (.node ⟨some "strong"⟩ 2 8 []) ∧
    (buildDecorations [⟨0, 6⟩] (.node ⟨some "strong"⟩ 2 8 [])).count
        (mark 2 8 "cm-strong") =
      (([⟨0, 6⟩] : List VisibleRange).filter (fun r => decide (touches 2 8 r))).length :=
  ⟨claim_C1_amended.1 [⟨0, 6⟩] (.node ⟨some "strong"⟩ 2 8 []) ⟨some "strong"⟩ 2 8 []
      ⟨0, 6⟩ "strong" "strong" "cm-strong" (by decide) (Occurs.refl _) rfl (by decide)
      (by decide) (by decide) (by decide),
   claim_C1_amended.2 [⟨0, 6⟩] 2 8 "strong" "cm-strong" (by decide)⟩

/-- Every span of a node without the `inline-code` class starts at the
node's `from`. -/
theorem enter_from_eq {ty : NodeType} {f t : Int}
    (h : (nodeProps ty).contains "inline-code" = false) :
    ∀ s ∈ enter ty f t, s.«from» = f := by
  obtain ⟨tp⟩ := ty
  cases tp with
  | none => intro s hs; simp [enter] at hs
  | some tp =>
    by_cases htp : tp = ""
    · subst htp; intro s hs; simp [enter] at hs
    · have h' : "inline-code" ∉ jsSplitSpace tp := by
        simpa [nodeProps, htp] using h
      intro s hs
      simp only [enter, htp, if_neg htp] at hs
      simp [h', hName1, hName2, hName3, hName4, hName5, hName6,
        hCls1, hCls2, hCls3, hCls4, hCls5, hCls6] at hs
      rcases hs with hd | hd | hd | hd | hd | hd | hd | hd |
          hd | hd | hd | hd | hd | hd | hd | hd <;>
        obtain ⟨-, rfl⟩ := hd <;> rfl

/-- A node carrying `inline-code` and no other recognized class emits
exactly the three inline-code spans. -/
theorem enter_ic_eq {ty : NodeType} {f t : Int}
    (hic : (nodeProps ty).contains "inline-code" = true)
    (hot : otherRecognized.all (fun nm => !(nodeProps ty).contains nm) = true) :
    enter ty f t = [mark f t "cm-inline-code", hide f (f + 1), hide (t - 1) t] := by
  obtain ⟨tp⟩ := ty
  cases tp with
  | none => simp [nodeProps] at hic
  | some tp =>
    by_cases htp : tp = ""
    · subst htp; simp [nodeProps] at hic
    · have hic' : "inline-code" ∈ jsSplitSpace tp := by
        simpa [nodeProps, htp] using hic
      have hs : ∀ nm ∈ otherRecognized, nm ∉ jsSplitSpace tp := by
        simpa [nodeProps, htp] using hot
      simp [enter, htp, hic', hName1, hName2, hName3, hName4, hName5, hName6,
        hs "strong" (by simp [otherRecognized]),
        hs "em" (by simp [otherRecognized]),
        hs "strikethrough" (by simp [otherRecognized]),
        hs "formatting-list-ol" (by simp [otherRecognized]),
        hs "formatting-list-ul" (by simp [otherRecognized]),
        hs "formatting-header" (by simp [otherRecognized]),
        hs "formatting-quote" (by simp [otherRecognized]),
        hs "formatting-code-block" (by simp [otherRecognized]),
        hs "h1" (by simp [otherRecognized]), hs "h2" (by simp [otherRecognized]),
        hs "h3" (by simp [otherRecognized]), hs "h4" (by simp [otherRecognized]),
        hs "h5" (by simp [otherRecognized]), hs "h6" (by simp [otherRecognized]),
        hs "list-1" (by simp [otherRecognized]),
        hs "quote" (by simp [otherRecognized]),
        hs "code-block" (by simp [otherRecognized])]

theorem sortedByFrom_of_const {l : List Span} {f : Int}
    (h : ∀ s ∈ l, s.«from» = f) : sortedByFrom l := by
  induction l with
  | nil => exact List.Pairwise.nil
  | cons a as ih =>
    refine List.Pairwise.cons ?_ (ih fun s hs => h s (List.mem_cons_of_mem a hs))
    intro b hb
    rw [h a (List.mem_cons_self a as), h b (List.mem_cons_of_mem a hb)]

theorem sortedByFrom_append {l1 l2 : List Span}
    (h1 : sortedByFrom l1) (h2 : sortedByFrom l2)
    (h12 : ∀ a ∈ l1, ∀ b ∈ l2, a.«from» ≤ b.«from») :
    sortedByFrom (l1 ++ l2) :=
  List.pairwise_append.mpr ⟨h1, h2, h12⟩

theorem wfNode_le {c : SyntaxNode} (h : wfNode c = true) : c.«from» ≤ c.«to» := by
  obtain ⟨ty, f, t, cs⟩ := c
  exact (wfNode_node.mp h).1

mutual

/-- On a well-formed ordered tree whose inline-code nodes are safe
leaves, the traversal output of a subtree is sorted by `from` and all
its spans start within the subtree's range. -/
theorem sorted_iterNode (rf rt : Int) (n : SyntaxNode)
    (hwf : wfNode n = true) (hord : orderedNode n = true)
    (hic : icSafeNode n = true) :
    sortedByFrom (iterNode rf rt n) ∧
      ∀ s ∈ iterNode rf rt n, n.«from» ≤ s.«from» ∧ s.«from» ≤ n.«to» := by
  obtain ⟨ty, f, t, cs⟩ := n
  simp only [SyntaxNode.«from», SyntaxNode.«to»]
  by_cases hc : f ≤ rt ∧ rf ≤ t
  case neg =>
    simp [iterNode, hc, sortedByFrom]
  case pos =>
    simp only [iterNode, if_pos hc]
    have hwf' := wfNode_node.mp hwf
    have hord' : orderedChildren cs = true := by simpa [orderedNode] using hord
    have hics : icSafeChildren cs = true := by
      have h0 := hic
      simp only [icSafeNode, Bool.and_eq_true] at h0
      exact h0.2
    by_cases hcic : (nodeProps ty).contains "inline-code" = true
    · have h3 := hic
      simp only [icSafeNode, hcic, if_true, Bool.and_eq_true, decide_eq_true_eq,
        List.isEmpty_iff] at h3
      obtain ⟨⟨⟨hlen, hnil⟩, hot⟩, -⟩ := h3
      subst hnil
      rw [enter_ic_eq hcic hot]
      simp only [iterChildren, List.append_nil]
      constructor
      · refine List.Pairwise.cons ?_ (List.Pairwise.cons ?_
          (List.Pairwise.cons (fun b hb => absurd hb (List.not_mem_nil b))
            List.Pairwise.nil))
        · intro b hb
          rcases List.mem_cons.mp hb with rfl | hb
          · simp [mark, hide]
          · rcases List.mem_cons.mp hb with rfl | hb
            · simp [mark, hide]
              omega
            · exact absurd hb (List.not_mem_nil b)
        · intro b hb
          rcases List.mem_cons.mp hb with rfl | hb
          · simp [hide]
            omega
          · exact absurd hb (List.not_mem_nil b)
      · intro s hs
        simp only [List.mem_cons, List.not_mem_nil, or_false] at hs
        rcases hs with rfl | rfl | rfl
        · simp only [mark]
          omega
        · simp only [hide]
          omega
        · simp only [hide]
          omega
    · have hcic' : (nodeProps ty).contains "inline-code" = false := by
        simpa using hcic
      have hall : ∀ s ∈ enter ty f t, s.«from» = f := enter_from_eq hcic'
      have hwfc : ∀ c ∈ cs, wfNode c = true ∧ c.«to» ≤ t := fun c hm =>
        ⟨(wfChildren_mem hwf'.2 hm).2.2, (wfChildren_mem hwf'.2 hm).2.1⟩
      have hlo : ∀ c, cs.head? = some c → f ≤ c.«from» := fun c hh =>
        (wfChildren_mem hwf'.2 (List.mem_of_mem_head? hh)).1
      have hQ := sorted_iterChildren rf rt f t cs hwfc hord' hics hlo
      constructor
      · refine sortedByFrom_append (sortedByFrom_of_const hall) hQ.1 ?_
        intro a ha b hb
        rw [hall a ha]
        exact (hQ.2 b hb).1
      · intro s hs
        rcases List.mem_append.mp hs with hs | hs
        · rw [hall s hs]
          exact ⟨le_refl f, hwf'.1⟩
        · exact hQ.2 s hs

/-- Sibling lists: the traversal of an ordered, contained child list is
sorted by `from` and its spans start in `[lo, t]` for any lower bound
`lo` below the first child. -/
theorem sorted_iterChildren (rf rt lo t : Int) (cs : List SyntaxNode)
    (hwf : ∀ c ∈ cs, wfNode c = true ∧ c.«to» ≤ t)
    (hord : orderedChildren cs = true)
    (hic : icSafeChildren cs = true)
    (hlo : ∀ c, cs.head? = some c → lo ≤ c.«from») :
    sortedByFrom (iterChildren rf rt cs) ∧
      ∀ s ∈ iterChildren rf rt cs, lo ≤ s.«from» ∧ s.«from» ≤ t := by
  match cs with
  | [] =>
    simp [iterChildren, sortedByFrom]
  | [c] =>
    obtain ⟨hwfc, hct⟩ := hwf c (List.mem_cons_self c [])
    have hordc : orderedNode c = true := by simpa [orderedChildren] using hord
    have hicc : icSafeNode c = true := by
      simp only [icSafeChildren, Bool.and_eq_true] at hic
      exact hic.1
    have hP := sorted_iterNode rf rt c hwfc hordc hicc
    have hlof : lo ≤ c.«from» := hlo c rfl
    simp only [iterChildren, List.append_nil]
    exact ⟨hP.1, fun s hs => ⟨le_trans hlof (hP.2 s hs).1,
      le_trans (hP.2 s hs).2 hct⟩⟩
  | c :: d :: cs' =>
    obtain ⟨hwfc, hct⟩ := hwf c (List.mem_cons_self c (d :: cs'))
    have hord3 : c.«to» ≤ d.«from» ∧ orderedNode c = true ∧
        orderedChildren (d :: cs') = true := by
      simpa [orderedChildren, Bool.and_eq_true, and_assoc] using hord
    have hic3 : icSafeNode c = true ∧ icSafeChildren (d :: cs') = true := by
      simpa [icSafeChildren, Bool.and_eq_true] using hic
    have hP := sorted_iterNode rf rt c hwfc hord3.2.1 hic3.1
    have hQ := sorted_iterChildren rf rt (c.«to») t (d :: cs')
      (fun e he => hwf e (List.mem_cons_of_mem c he))
      hord3.2.2 hic3.2
      (fun e he => by
        cases he
        exact hord3.1)
    have hlof : lo ≤ c.«from» := hlo c rfl
    simp only [iterChildren]
    constructor
    · refine sortedByFrom_append hP.1 hQ.1 ?_
      intro a ha b hb
      exact le_trans (hP.2 a ha).2 (hQ.2 b hb).1
    · intro s hs
      rcases List.mem_append.mp hs with hs | hs
      · exact ⟨le_trans hlof (hP.2 s hs).1, le_trans (hP.2 s hs).2 hct⟩
      · exact ⟨le_trans hlof (le_trans (wfNode_le hwfc) (hQ.2 s hs).1),
          (hQ.2 s hs).2⟩

end

/-- C3 (corrected): counterexample - for an InlineCode node `[10,16)`
the builder receives the `cm-inline-code` mark over `[10,16)` and then
the hidden span `[10,11)`: equal `from` with decreasing `to`, so the
emitted span list is not sorted ascending by `(from, to)`. -/
theorem claim_C3_counterexample :
    sortedByFromThenTo
      (buildDecorations [⟨0, 100⟩] (.node ⟨some "inline-code"⟩ 10 16 [])) = false := by
  decide

/-- C3 (amended): for a single visible range and a well-formed ordered
tree whose inline-code nodes are leaves of length at least 2 carrying no
other recognized class, the emitted span list is sorted ascending by
`from`; spans sharing a `from` keep emission order (a node's mark span
precedes its shorter hidden spans), not ascending `to`; with several
visible ranges a node touching more than one range is re-emitted,
breaking even the `from` order. -/
theorem claim_C3_amended {r : VisibleRange} {tree : SyntaxNode}
    (hwf : wfNode tree = true) (hord : orderedNode tree = true)
    (hic : icSafeNode tree = true) :
    sortedByFrom (buildDecorations [r] tree) := by
  have h := (sorted_iterNode r.«from» r.«to» tree hwf hord hic).1
  simpa [buildDecorations] using h

/-- C3 witness: a small two-child tree (a strong node and an inline-code
node) under one visible range. -/
theorem claim_C3_witness :
    sortedByFrom (buildDecorations [⟨0, 20⟩]
      (.node ⟨none⟩ 0 20 [SyntaxNode.node ⟨some "strong"⟩ 1 5 [],
        SyntaxNode.node ⟨some "inline-code"⟩ 6 12 []])) :=
  claim_C3_amended (by decide) (by decide) (by decide)

end LivePreview
